import Mathlib

/-!
Verification of the font resolution and caching module (`font_management.py`).

The module exposes two functions:

* `download_google_font family weights` — queries the Google Fonts CSS
  endpoint, parses a map from numeric weight to source URL, downloads each
  requested weight into an on-disk cache (falling back to the closest
  available weight when the exact one is absent), and back-fills missing
  weight keys from the regular weight.
* `load_fonts family` — the orchestrator: local override scan in `fonts/`,
  then the Google Fonts download, then the bundled Roboto fallback.

The embedding below models the two external capabilities as oracles:

* the parsed catalog (`Env.cssBlocks`): `none` models a failed CSS request
  (the surrounding `try` turns it into a `None` return); `some blocks` is the
  list of `(weight, url)` pairs extracted from the `@font-face` blocks, in
  parse order — the Python code folds them into an insertion-ordered dict;
* per-URL download outcomes (`Env.dl`): the binary fetch can fail before any
  byte is written (`fetchFail`: `requests.get` or `raise_for_status` raises),
  fail in the middle of `Path.write_bytes` (`writeFail`: the file was created
  at the final path but holds partial content, per POSIX `open`/`write`
  semantics — the code writes directly to the final path), or succeed (`ok`).

The filesystem is the set of existing file paths (`List String`); network
activity is recorded as a list of `Event`s (`cssFetch` for the catalog
request on line 49, `binFetch url` for each `requests.get` of a font binary
on line 105, `localScan` for the local-override directory probe).

Python dicts are modelled as insertion-ordered association lists with
`dinsert` (assignment: overwrite in place, else append), `dget` (lookup),
`dsetdefault`, matching CPython semantics.
-/

set_option maxRecDepth 10000

/-! ## Ordered-dict primitives (CPython `dict` semantics) -/

/-- Membership test on a list of paths (`os.path.exists` / `Path.exists`). -/
def elemS (x : String) : List String → Bool
  | [] => false
  | y :: ys => decide (y = x) || elemS x ys

/-- `d.get(k)` / `d[k]`: value of the first (unique) entry with key `k`. -/
def dget {α β : Type} [DecidableEq α] : List (α × β) → α → Option β
  | [], _ => none
  | p :: rest, k => if p.1 = k then some p.2 else dget rest k

/-- `k in d`. -/
def dcontains {α β : Type} [DecidableEq α] : List (α × β) → α → Bool
  | [], _ => false
  | p :: rest, k => decide (p.1 = k) || dcontains rest k

/-- `d[k] = v`: overwrite in place if the key exists, else append. -/
def dinsert {α β : Type} [DecidableEq α] (k : α) (v : β) (d : List (α × β)) :
    List (α × β) :=
  if dcontains d k then d.map (fun p => if p.1 = k then (k, v) else p)
  else d ++ [(k, v)]

/-- `d.setdefault(k, v)`. -/
def dsetdefault {α β : Type} [DecidableEq α] (k : α) (v : β) (d : List (α × β)) :
    List (α × β) :=
  if dcontains d k then d else d ++ [(k, v)]

/-- `d.keys()` in insertion order. -/
def dkeys {α β : Type} : List (α × β) → List α := List.map Prod.fst

/-- `list(d.values())[0]` (on a non-empty dict; totalised with `""`). -/
def firstVal : List (String × String) → String
  | [] => ""
  | p :: _ => p.2

/-! ## String primitives (Python `str` methods used by the module) -/

/-- `str.lower()` (ASCII case folding, which covers every use here). -/
def lowerStr (s : String) : String := ⟨s.data.map Char.toLower⟩

/-- `str.replace(" ", "_")`. -/
def replaceSpaces (s : String) : String :=
  ⟨s.data.map (fun c => if c = ' ' then '_' else c)⟩

/-- Prefix test on character lists. -/
def hasPrefixC : List Char → List Char → Bool
  | [], _ => true
  | _ :: _, [] => false
  | a :: as, b :: bs => decide (a = b) && hasPrefixC as bs

/-- Contiguous-substring test on character lists. -/
def hasInfixC (sub : List Char) : List Char → Bool
  | [] => hasPrefixC sub []
  | b :: bs => hasPrefixC sub (b :: bs) || hasInfixC sub bs

/-- Python `sub in s`. -/
def strContains (s sub : String) : Bool := hasInfixC sub.data s.data

/-- Python `s.endswith(sfx)`. -/
def endsWithS (s sfx : String) : Bool :=
  decide (s.data.drop (s.data.length - sfx.data.length) = sfx.data)

/-! ## Data model of the module -/

/-- `FONTS_DIR = "fonts"` (line 13). -/
def FONTS_DIR : String := "fonts"

/-- `FONTS_CACHE_DIR = Path(FONTS_DIR) / "cache"` (line 14). -/
def FONTS_CACHE_DIR : String := FONTS_DIR ++ "/cache"

/-- Outcome of one binary font download attempt (lines 105–107):
`requests.get`/`raise_for_status` raising, `write_bytes` failing after the
file was created at the final path, or full success. -/
inductive DlOutcome
  | fetchFail
  | writeFail
  | ok
deriving DecidableEq

/-- Network / parse oracle for one resolution call. -/
structure Env where
  cssBlocks : Option (List (Nat × String))
  dl : String → DlOutcome

/-- Observable side effects: the local-directory probe, the CSS catalog
request (line 49) and each binary fetch attempt (line 105). -/
inductive Event
  | localScan
  | cssFetch
  | binFetch (url : String)
deriving DecidableEq

/-- `weight_map.get(weight, "regular")` with `weight_map =
{300: "light", 400: "regular", 700: "bold"}` (lines 74, 78). -/
def weightKeyOf (w : Nat) : String :=
  if w = 300 then "light" else if w = 400 then "regular"
  else if w = 700 then "bold" else "regular"

/-- `font_name_safe = font_family.replace(" ", "_").lower()` (line 33). -/
def font_name_safe (family : String) : String := lowerStr (replaceSpaces family)

/-- `font_filename = f"{font_name_safe}_{weight_key}.{file_ext}"` (line 99). -/
def cacheFilename (family key ext : String) : String :=
  font_name_safe family ++ "_" ++ key ++ "." ++ ext

/-- `font_path = FONTS_CACHE_DIR / font_filename` (line 100). -/
def cachePath (family key ext : String) : String :=
  FONTS_CACHE_DIR ++ "/" ++ cacheFilename family key ext

/-- `file_ext = "woff2" if weight_url.endswith(".woff2") else "ttf"`
(line 96). -/
def extOf (url : String) : String :=
  if endsWithS url ".woff2" then "woff2" else "ttf"

/-- `abs(x - weight)` on Python ints. -/
def distTo (w x : Nat) : Nat := ((x : Int) - (w : Int)).natAbs

/-- The running-minimum fold underlying CPython `min` with a key function:
the current best is replaced only on a strictly smaller key value, so the
earliest element among those with the minimal key value wins. -/
def pyMinFold (w a : Nat) (l : List Nat) : Nat :=
  l.foldl (fun best x => if distTo w x < distTo w best then x else best) a

/-- `min(keys, key=lambda x: abs(x - weight))` (lines 86–88). -/
def pyMinKey (w : Nat) : List Nat → Option Nat
  | [] => none
  | k :: ks => some (pyMinFold w k ks)

/-- Python truthiness of `weight_url` (`None` and `""` are falsy). -/
def optFalsy : Option String → Bool
  | none => true
  | some s => decide (s = "")

/-- Lines 81–89: `weight_url = weight_url_map.get(weight)`, then the
closest-weight substitution when `not weight_url and weight_url_map`. -/
def resolveUrl (cat : List (Nat × String)) (w : Nat) : Option String :=
  let w0 := dget cat w
  if optFalsy w0 && !cat.isEmpty then
    match pyMinKey w (dkeys cat) with
    | some ck => dget cat ck
    | none => w0
  else w0

/-- State threaded through the per-weight loop of `download_google_font`:
the `font_files` dict, the filesystem, and the recorded events. -/
structure LoopSt where
  font_files : List (String × String)
  fs : List String
  events : List Event
deriving DecidableEq

/-- One iteration of the loop `for weight in weights` (lines 77–114):
`weight_key` is `weightKeyOf weight` and `font_path` is
`cachePath family weight_key (extOf url)`, written out in full. -/
def dgfStep (family : String) (cat : List (Nat × String)) (env : Env)
    (st : LoopSt) (weight : Nat) : LoopSt :=
  match resolveUrl cat weight with
  | none => st
  | some url =>
    if url = "" then st
    else if elemS (cachePath family (weightKeyOf weight) (extOf url)) st.fs then
      { st with font_files := dinsert (weightKeyOf weight)
                  (cachePath family (weightKeyOf weight) (extOf url))
                  st.font_files }
    else
      match env.dl url with
      | .fetchFail => { st with events := st.events ++ [.binFetch url] }
      | .writeFail =>
        { st with fs := st.fs ++ [cachePath family (weightKeyOf weight) (extOf url)],
                  events := st.events ++ [.binFetch url] }
      | .ok =>
        { font_files := dinsert (weightKeyOf weight)
            (cachePath family (weightKeyOf weight) (extOf url)) st.font_files,
          fs := st.fs ++ [cachePath family (weightKeyOf weight) (extOf url)],
          events := st.events ++ [.binFetch url] }

/-- Lines 116–120: `if "regular" not in font_files and font_files:` promote
the first available value to `regular`. -/
def fillRegular (d : List (String × String)) : List (String × String) :=
  if !dcontains d "regular" && !d.isEmpty
  then dinsert "regular" (firstVal d) d else d

/-- Lines 122–128: `if k not in font_files and "regular" in font_files:`
duplicate the `regular` path into the missing key `k`. -/
def fillKey (k : String) (d : List (String × String)) : List (String × String) :=
  if !dcontains d k && dcontains d "regular"
  then dinsert k ((dget d "regular").getD "") d else d

/-- Lines 116–128: promote the first available weight to `regular` when
`regular` is missing, then duplicate `regular` into missing `bold`, then
missing `light` (in source order). -/
def dgfBackfill (d0 : List (String × String)) : List (String × String) :=
  fillKey "light" (fillKey "bold" (fillRegular d0))

/-- Lines 55–71: the parsed `@font-face` blocks are folded into the
insertion-ordered dict `weight_url_map`. -/
def mkCatalog (blocks : List (Nat × String)) : List (Nat × String) :=
  blocks.foldl (fun d p => dinsert p.1 p.2 d) []

/-- Result of `download_google_font` / `load_fonts` together with the
filesystem left behind and the network events performed. -/
structure DGFRes where
  res : Option (List (String × String))
  fs : List String
  events : List Event
deriving DecidableEq

/-- `weights = [300, 400, 700]` — the default (lines 26–27), always used by
`load_fonts` (line 199). -/
def defaultWeights : List Nat := [300, 400, 700]

/-- `download_google_font` (lines 17–134) over the oracle `env`, starting
from filesystem `fs`. -/
def download_google_font (family : String) (weights : List Nat)
    (fs : List String) (env : Env) : DGFRes :=
  match env.cssBlocks with
  | none => ⟨none, fs, [.cssFetch]⟩
  | some blocks =>
    let cat := mkCatalog blocks
    let st := weights.foldl (dgfStep family cat env) ⟨[], fs, [.cssFetch]⟩
    let ff := dgfBackfill st.font_files
    ⟨if ff.isEmpty then none else some ff, st.fs, st.events⟩

/-- `local_font_patterns` (lines 157–164). -/
def local_font_patterns (f : String) : List String :=
  [f ++ "-Reg.ttf", f ++ "-Regular.ttf", f ++ ".ttf",
   f ++ "-Bold.ttf", f ++ "-Bd.ttf", f ++ "-Light.ttf"]

/-- Lines 170–177: weight key of a local file, decided by case-insensitive
substring tests on the whole pattern (`pattern_lower = pattern.lower()`,
family name included). -/
def classify (pat : String) : String :=
  if strContains (lowerStr pat) "light" then "light"
  else if strContains (lowerStr pat) "bold" || strContains (lowerStr pat) "-bd"
  then "bold"
  else "regular"

/-- Lines 166–177: scan `fonts/` for the recognized patterns, assigning
`local_fonts[classify(pattern)] = os.path.join(FONTS_DIR, pattern)` for each
pattern whose path exists. -/
def scanLocal (f : String) (fs : List String) : List (String × String) :=
  (local_font_patterns f).foldl
    (fun d pat =>
      if elemS (FONTS_DIR ++ "/" ++ pat) fs then
        dinsert (classify pat) (FONTS_DIR ++ "/" ++ pat) d
      else d) []

/-- Lines 183–192: back-fill of the local override map (`setdefault`
semantics, from `regular` when present, else from the first entry). -/
def localBackfill (lf : List (String × String)) : List (String × String) :=
  if dcontains lf "regular" then
    let base := (dget lf "regular").getD ""
    dsetdefault "light" base (dsetdefault "bold" base lf)
  else if !lf.isEmpty then
    let base := firstVal lf
    ["regular", "bold", "light"].foldl (fun d w => dsetdefault w base d) lf
  else lf

/-- Lines 207–211: the bundled Roboto fallback dict, in source order. -/
def robotoFonts : List (String × String) :=
  [("bold", FONTS_DIR ++ "/Roboto-Bold.ttf"),
   ("regular", FONTS_DIR ++ "/Roboto-Regular.ttf"),
   ("light", FONTS_DIR ++ "/Roboto-Light.ttf")]

/-- Lines 206–219: return the Roboto dict when all three files exist, else
`None`. -/
def defaultStage (fs : List String) : Option (List (String × String)) :=
  if robotoFonts.all (fun p => elemS p.2 fs) then some robotoFonts else none

/-- `load_fonts` (lines 137–219): local override scan, then Google Fonts
download, then the Roboto fallback. The guard on line 155 is
`font_family and font_family.lower() != "roboto"`. -/
def load_fonts (fam : Option String) (fs : List String) (env : Env) : DGFRes :=
  match fam with
  | none => ⟨defaultStage fs, fs, []⟩
  | some f =>
    if f ≠ "" ∧ lowerStr f ≠ "roboto" then
      let lf := scanLocal f fs
      if !lf.isEmpty then ⟨some (localBackfill lf), fs, [.localScan]⟩
      else
        let d := download_google_font f defaultWeights fs env
        match d.res with
        | some ff => ⟨some ff, d.fs, .localScan :: d.events⟩
        | none => ⟨defaultStage d.fs, d.fs, .localScan :: d.events⟩
    else ⟨defaultStage fs, fs, []⟩

/-! ## Dictionary lemmas -/

theorem elemS_iff (x : String) (l : List String) : elemS x l = true ↔ x ∈ l := by
  induction l with
  | nil => simp [elemS]
  | cons y ys ih =>
    simp only [elemS, Bool.or_eq_true, decide_eq_true_eq, List.mem_cons, ih]
    constructor
    · rintro (h | h)
      · exact Or.inl h.symm
      · exact Or.inr h
    · rintro (h | h)
      · exact Or.inl h.symm
      · exact Or.inr h

theorem dcontains_map_keyfix {α β : Type} [DecidableEq α] (k : α) (v : β)
    (d : List (α × β)) (k' : α) :
    dcontains (d.map (fun p => if p.1 = k then (k, v) else p)) k' =
      dcontains d k' := by
  induction d with
  | nil => rfl
  | cons p rest ih =>
    by_cases h : p.1 = k <;> simp [dcontains, ih, h]

theorem dcontains_append {α β : Type} [DecidableEq α] (d e : List (α × β)) (k : α) :
    dcontains (d ++ e) k = (dcontains d k || dcontains e k) := by
  induction d with
  | nil => rfl
  | cons p rest ih => simp [dcontains, ih, Bool.or_assoc]

theorem dcontains_dinsert {α β : Type} [DecidableEq α] (k : α) (v : β)
    (d : List (α × β)) (k' : α) :
    dcontains (dinsert k v d) k' = (dcontains d k' || decide (k' = k)) := by
  unfold dinsert
  by_cases h : dcontains d k
  · rw [if_pos h, dcontains_map_keyfix]
    by_cases hk : k' = k
    · subst hk; simp [h]
    · simp [hk]
  · rw [if_neg h, dcontains_append]
    simp [dcontains, eq_comm]

theorem dget_map_keyfix_self {α β : Type} [DecidableEq α] (k : α) (v : β)
    (d : List (α × β)) (h : dcontains d k = true) :
    dget (d.map (fun p => if p.1 = k then (k, v) else p)) k = some v := by
  induction d with
  | nil => simp [dcontains] at h
  | cons p rest ih =>
    by_cases hp : p.1 = k
    · simp [dget, hp]
    · simp only [dcontains, Bool.or_eq_true, decide_eq_true_eq] at h
      rcases h with h | h
      · exact absurd h hp
      · simp [dget, hp, ih h]

theorem dget_map_keyfix_ne {α β : Type} [DecidableEq α] (k : α) (v : β)
    (d : List (α × β)) (k' : α) (hne : ¬k = k') :
    dget (d.map (fun p => if p.1 = k then (k, v) else p)) k' = dget d k' := by
  induction d with
  | nil => rfl
  | cons p rest ih =>
    by_cases hp : p.1 = k
    · have hp' : ¬p.1 = k' := by rw [hp]; exact hne
      simp [dget, hp, hp', hne, ih]
    · simp [dget, hp, ih]

theorem dget_append_single {α β : Type} [DecidableEq α] (d : List (α × β))
    (k : α) (v : β) (k' : α) (h : dcontains d k = false) :
    dget (d ++ [(k, v)]) k' = if k' = k then some v else dget d k' := by
  induction d with
  | nil => simp [dget, eq_comm]
  | cons p rest ih =>
    simp only [dcontains, Bool.or_eq_false_iff, decide_eq_false_iff_not] at h
    by_cases hpk : p.1 = k'
    · have hk : ¬k' = k := fun hh => h.1 (hpk.trans hh)
      simp [dget, hpk, hk]
    · simp only [List.cons_append, dget, hpk, if_false, if_neg hpk]
      exact ih h.2

theorem dget_dinsert {α β : Type} [DecidableEq α] (k : α) (v : β)
    (d : List (α × β)) (k' : α) :
    dget (dinsert k v d) k' = if k' = k then some v else dget d k' := by
  unfold dinsert
  by_cases h : dcontains d k
  · rw [if_pos h]
    by_cases hk : k' = k
    · subst hk; rw [if_pos rfl]; exact dget_map_keyfix_self k' v d h
    · rw [if_neg hk]; exact dget_map_keyfix_ne k v d k' (fun hh => hk hh.symm)
  · rw [if_neg h]
    exact dget_append_single d k v k' (by simpa using h)

theorem dcontains_dsetdefault {α β : Type} [DecidableEq α] (k : α) (v : β)
    (d : List (α × β)) (k' : α) :
    dcontains (dsetdefault k v d) k' = (dcontains d k' || decide (k' = k)) := by
  unfold dsetdefault
  by_cases h : dcontains d k
  · rw [if_pos h]
    by_cases hk : k' = k
    · subst hk; simp [h]
    · simp [hk]
  · rw [if_neg h, dcontains_append]
    simp [dcontains, eq_comm]

theorem dinsert_ne_nil {α β : Type} [DecidableEq α] (k : α) (v : β)
    (d : List (α × β)) : dinsert k v d ≠ [] := by
  unfold dinsert
  by_cases h : dcontains d k
  · rw [if_pos h]
    cases d with
    | nil => simp [dcontains] at h
    | cons p rest => simp
  · rw [if_neg h]; simp

theorem mem_dinsert {α β : Type} [DecidableEq α] {k : α} {v : β}
    {d : List (α × β)} {p : α × β} (hp : p ∈ dinsert k v d) :
    p.1 = k ∨ p ∈ d := by
  unfold dinsert at hp
  by_cases h : dcontains d k
  · rw [if_pos h] at hp
    rcases List.mem_map.mp hp with ⟨q, hq, hqe⟩
    by_cases hqk : q.1 = k
    · left; rw [if_pos hqk] at hqe; rw [← hqe]
    · right; rw [if_neg hqk] at hqe; rw [← hqe]; exact hq
  · rw [if_neg h] at hp
    rcases List.mem_append.mp hp with h1 | h1
    · right; exact h1
    · left; simp only [List.mem_singleton] at h1; rw [h1]

theorem dget_eq_none_of_keys {α β : Type} [DecidableEq α] {d : List (α × β)}
    {a b : α} (h : ∀ p ∈ d, p.1 = a) (hne : b ≠ a) : dget d b = none := by
  induction d with
  | nil => rfl
  | cons p rest ih =>
    have hp : p.1 = a := h p (by simp)
    have hpb : ¬p.1 = b := by rw [hp]; exact fun hh => hne hh.symm
    simp [dget, hpb]
    exact ih (fun q hq => h q (by simp [hq]))

/-! ## Substring lemmas -/

theorem hasPrefixC_append {s l : List Char} (r : List Char)
    (h : hasPrefixC s l = true) : hasPrefixC s (l ++ r) = true := by
  induction s generalizing l with
  | nil => rfl
  | cons a as ih =>
    cases l with
    | nil => simp [hasPrefixC] at h
    | cons b bs =>
      simp [hasPrefixC] at h ⊢
      exact ⟨h.1, ih h.2⟩

theorem hasInfixC_append {s l : List Char} (r : List Char)
    (h : hasInfixC s l = true) : hasInfixC s (l ++ r) = true := by
  induction l with
  | nil =>
    cases s with
    | nil => cases r <;> simp [hasInfixC, hasPrefixC]
    | cons a as => simp [hasInfixC, hasPrefixC] at h
  | cons b bs ih =>
    simp [hasInfixC] at h ⊢
    rcases h with h | h
    · left; exact hasPrefixC_append r h
    · right; exact ih h

/-! ## Back-fill totality lemmas -/

theorem fillRegular_contains (d : List (String × String)) (hd : d ≠ []) :
    dcontains (fillRegular d) "regular" = true := by
  unfold fillRegular
  by_cases hr : dcontains d "regular"
  · simp [hr]
  · have he : d.isEmpty = false := by
      cases d with
      | nil => exact absurd rfl hd
      | cons p rest => rfl
    simp [hr, he, dcontains_dinsert]

theorem fillKey_preserve (k : String) (d : List (String × String)) (k' : String)
    (h : dcontains d k' = true) : dcontains (fillKey k d) k' = true := by
  unfold fillKey
  by_cases hc : !dcontains d k && dcontains d "regular"
  · simp only [hc, if_true, if_pos hc, dcontains_dinsert, h, Bool.true_or]
  · simp only [if_neg hc, h]

theorem fillKey_contains_self (k : String) (d : List (String × String))
    (hr : dcontains d "regular" = true) : dcontains (fillKey k d) k = true := by
  unfold fillKey
  by_cases hk : dcontains d k
  · rw [hk]
    simp only [Bool.not_true, Bool.false_and, Bool.false_eq_true, if_false]
    exact hk
  · have hkf : dcontains d k = false := by simpa using hk
    simp [hkf, hr, dcontains_dinsert]

theorem dgfBackfill_total (d : List (String × String)) (hd : d ≠ []) :
    dcontains (dgfBackfill d) "light" = true ∧
    dcontains (dgfBackfill d) "regular" = true ∧
    dcontains (dgfBackfill d) "bold" = true := by
  have r1 : dcontains (fillRegular d) "regular" = true := fillRegular_contains d hd
  have r2 : dcontains (fillKey "bold" (fillRegular d)) "regular" = true :=
    fillKey_preserve _ _ _ r1
  have b2 : dcontains (fillKey "bold" (fillRegular d)) "bold" = true :=
    fillKey_contains_self _ _ r1
  exact ⟨fillKey_contains_self _ _ r2,
         fillKey_preserve _ _ _ r2,
         fillKey_preserve _ _ _ b2⟩

theorem dgfBackfill_nil : dgfBackfill [] = [] := rfl

theorem localBackfill_total (lf : List (String × String)) (hd : lf ≠ []) :
    dcontains (localBackfill lf) "light" = true ∧
    dcontains (localBackfill lf) "regular" = true ∧
    dcontains (localBackfill lf) "bold" = true := by
  unfold localBackfill
  by_cases hr : dcontains lf "regular"
  · simp only [hr, if_true, if_pos hr]
    refine ⟨?_, ?_, ?_⟩ <;> simp [dcontains_dsetdefault, hr]
  · have he : (!lf.isEmpty) = true := by
      cases lf with
      | nil => exact absurd rfl hd
      | cons p rest => rfl
    simp only [if_neg hr, he, if_true, List.foldl]
    refine ⟨?_, ?_, ?_⟩ <;> simp [dcontains_dsetdefault]

/-! ## Per-weight loop lemmas -/

/-- The cache path a weight resolves to, when a truthy URL is found: this is
determined by the catalog alone, identically across calls. -/
def pathFor (family : String) (cat : List (Nat × String)) (w : Nat) :
    Option String :=
  match resolveUrl cat w with
  | none => none
  | some url =>
    if url = "" then none
    else some (cachePath family (weightKeyOf w) (extOf url))

theorem dgfStep_fs_mono (family : String) (cat : List (Nat × String))
    (env : Env) (st : LoopSt) (w : Nat) (x : String) (hx : x ∈ st.fs) :
    x ∈ (dgfStep family cat env st w).fs := by
  cases hru : resolveUrl cat w with
  | none => simp only [dgfStep, hru]; exact hx
  | some url =>
    by_cases hu : url = ""
    · simp only [dgfStep, hru, if_pos hu]; exact hx
    · simp only [dgfStep, hru, if_neg hu]
      by_cases he : elemS (cachePath family (weightKeyOf w) (extOf url)) st.fs
      · simp only [if_pos he]; exact hx
      · simp only [if_neg he]
        cases env.dl url with
        | fetchFail => exact hx
        | writeFail => exact List.mem_append_left _ hx
        | ok => exact List.mem_append_left _ hx

theorem dgfFold_fs_mono (family : String) (cat : List (Nat × String))
    (env : Env) (l : List Nat) (st : LoopSt) (x : String) (hx : x ∈ st.fs) :
    x ∈ (l.foldl (dgfStep family cat env) st).fs := by
  induction l generalizing st with
  | nil => exact hx
  | cons w l ih => exact ih _ (dgfStep_fs_mono family cat env st w x hx)

theorem dgfStep_path_in (family : String) (cat : List (Nat × String))
    (env : Env) (st : LoopSt) (w : Nat) (p : String)
    (hok : ∀ u, env.dl u = DlOutcome.ok)
    (hp : pathFor family cat w = some p) :
    p ∈ (dgfStep family cat env st w).fs := by
  cases hru : resolveUrl cat w with
  | none => simp only [pathFor, hru] at hp; exact absurd hp (by simp)
  | some url =>
    simp only [pathFor, hru] at hp
    by_cases hu : url = ""
    · rw [if_pos hu] at hp; exact absurd hp (by simp)
    · rw [if_neg hu] at hp
      have hpe : cachePath family (weightKeyOf w) (extOf url) = p :=
        Option.some.inj hp
      simp only [dgfStep, hru, if_neg hu, hpe]
      by_cases he : elemS p st.fs
      · simp only [if_pos he]; exact (elemS_iff p st.fs).mp he
      · simp only [if_neg he, hok url]
        exact List.mem_append_right _ (by simp)

theorem dgfFold_path_in (family : String) (cat : List (Nat × String))
    (env : Env) (l : List Nat) (st : LoopSt) (w : Nat) (p : String)
    (hok : ∀ u, env.dl u = DlOutcome.ok) (hw : w ∈ l)
    (hp : pathFor family cat w = some p) :
    p ∈ (l.foldl (dgfStep family cat env) st).fs := by
  induction l generalizing st with
  | nil => cases hw
  | cons w' l ih =>
    rcases List.mem_cons.mp hw with rfl | hw'
    · exact dgfFold_fs_mono family cat env l _ p
        (dgfStep_path_in family cat env st w p hok hp)
    · exact ih (dgfStep family cat env st w') hw'

theorem dgfStep_cached (family : String) (cat : List (Nat × String))
    (env : Env) (st : LoopSt) (w : Nat)
    (hcache : ∀ p, pathFor family cat w = some p → p ∈ st.fs) :
    (dgfStep family cat env st w).fs = st.fs ∧
    (dgfStep family cat env st w).events = st.events := by
  cases hru : resolveUrl cat w with
  | none => simp [dgfStep, hru]
  | some url =>
    by_cases hu : url = ""
    · simp [dgfStep, hru, if_pos hu]
    · have hin : elemS (cachePath family (weightKeyOf w) (extOf url)) st.fs = true := by
        apply (elemS_iff _ _).mpr
        apply hcache
        simp only [pathFor, hru, if_neg hu]
      simp [dgfStep, hru, if_neg hu, if_pos hin]

theorem dgfFold_cached (family : String) (cat : List (Nat × String))
    (env : Env) (l : List Nat) (st : LoopSt)
    (hcache : ∀ w ∈ l, ∀ p, pathFor family cat w = some p → p ∈ st.fs) :
    (l.foldl (dgfStep family cat env) st).fs = st.fs ∧
    (l.foldl (dgfStep family cat env) st).events = st.events := by
  induction l generalizing st with
  | nil => exact ⟨rfl, rfl⟩
  | cons w l ih =>
    have h1 := dgfStep_cached family cat env st w
      (hcache w (List.mem_cons_self w l))
    have h2 := ih (dgfStep family cat env st w)
      (fun w' hw' p hp => by
        rw [h1.1]; exact hcache w' (List.mem_cons_of_mem w hw') p hp)
    exact ⟨h2.1.trans h1.1, h2.2.trans h1.2⟩

theorem dgfStep_fetchFail (family : String) (cat : List (Nat × String))
    (env : Env) (st : LoopSt) (w : Nat)
    (hff : ∀ u, env.dl u = DlOutcome.fetchFail) :
    (dgfStep family cat env st w).fs = st.fs := by
  cases hru : resolveUrl cat w with
  | none => simp only [dgfStep, hru]
  | some url =>
    by_cases hu : url = ""
    · simp only [dgfStep, hru, if_pos hu]
    · simp only [dgfStep, hru, if_neg hu]
      by_cases he : elemS (cachePath family (weightKeyOf w) (extOf url)) st.fs
      · simp only [if_pos he]
      · simp only [if_neg he, hff url]

theorem dgfFold_fetchFail (family : String) (cat : List (Nat × String))
    (env : Env) (l : List Nat) (st : LoopSt)
    (hff : ∀ u, env.dl u = DlOutcome.fetchFail) :
    (l.foldl (dgfStep family cat env) st).fs = st.fs := by
  induction l generalizing st with
  | nil => rfl
  | cons w l ih =>
    calc (List.foldl (dgfStep family cat env) (dgfStep family cat env st w) l).fs
        = (dgfStep family cat env st w).fs := ih _
      _ = st.fs := dgfStep_fetchFail family cat env st w hff

/-! ## Closest-weight selection lemmas -/

theorem pyMinFold_spec (w : Nat) (l : List Nat) (a : Nat) :
    (pyMinFold w a l = a ∨ pyMinFold w a l ∈ l) ∧
    distTo w (pyMinFold w a l) ≤ distTo w a ∧
    ∀ x ∈ l, distTo w (pyMinFold w a l) ≤ distTo w x := by
  induction l generalizing a with
  | nil => exact ⟨Or.inl rfl, le_refl _, by simp⟩
  | cons y l ih =>
    have hunf : pyMinFold w a (y :: l) =
        pyMinFold w (if distTo w y < distTo w a then y else a) l := rfl
    rcases ih (if distTo w y < distTo w a then y else a) with ⟨hmem, hle, hall⟩
    refine ⟨?_, ?_, ?_⟩
    · rcases hmem with h | h
      · by_cases hc : distTo w y < distTo w a
        · right; rw [hunf, h, if_pos hc]; exact List.mem_cons_self y l
        · left; rw [hunf, h, if_neg hc]
      · right; rw [hunf]; exact List.mem_cons_of_mem y h
    · rw [hunf]
      refine le_trans hle ?_
      by_cases hc : distTo w y < distTo w a
      · rw [if_pos hc]; exact le_of_lt hc
      · rw [if_neg hc]
    · intro x hx
      rw [hunf]
      rcases List.mem_cons.mp hx with rfl | hx'
      · refine le_trans hle ?_
        by_cases hc : distTo w x < distTo w a
        · rw [if_pos hc]
        · rw [if_neg hc]; omega
      · exact hall x hx'

theorem pyMinKey_spec (w k : Nat) (ks : List Nat) (h : pyMinKey w ks = some k) :
    k ∈ ks ∧ ∀ x ∈ ks, distTo w k ≤ distTo w x := by
  cases ks with
  | nil => simp [pyMinKey] at h
  | cons a l =>
    simp only [pyMinKey, Option.some.injEq] at h
    subst h
    rcases pyMinFold_spec w l a with ⟨hmem, hle, hall⟩
    refine ⟨?_, ?_⟩
    · rcases hmem with h' | h'
      · rw [h']; exact List.mem_cons_self a l
      · exact List.mem_cons_of_mem a h'
    · intro x hx
      rcases List.mem_cons.mp hx with rfl | hx'
      · exact hle
      · exact hall x hx'

/-! ## Local classification lemmas -/

theorem lowerStr_data (s : String) :
    (lowerStr s).data = s.data.map Char.toLower := rfl

theorem strContains_lower_append (f sfx sub : String)
    (h : strContains (lowerStr f) sub = true) :
    strContains (lowerStr (f ++ sfx)) sub = true := by
  unfold strContains at h ⊢
  rw [lowerStr_data] at h ⊢
  rw [String.data_append, List.map_append]
  exact hasInfixC_append _ h

theorem classify_light (pat : String)
    (h : strContains (lowerStr pat) "light" = true) : classify pat = "light" := by
  simp [classify, h]

theorem scan_fold_keys (fs : List String) (l : List String)
    (d0 : List (String × String)) (key : String)
    (hl : ∀ pat ∈ l, classify pat = key) (hd : ∀ p ∈ d0, p.1 = key) :
    ∀ p ∈ l.foldl (fun d pat =>
        if elemS (FONTS_DIR ++ "/" ++ pat) fs then
          dinsert (classify pat) (FONTS_DIR ++ "/" ++ pat) d
        else d) d0,
      p.1 = key := by
  induction l generalizing d0 with
  | nil => exact hd
  | cons pat l ih =>
    rw [List.foldl_cons]
    apply ih
    · exact fun q hq => hl q (List.mem_cons_of_mem pat hq)
    · intro p hp
      by_cases he : elemS (FONTS_DIR ++ "/" ++ pat) fs
      · rw [if_pos he] at hp
        rcases mem_dinsert hp with h | h
        · rw [h]; exact hl pat (List.mem_cons_self pat l)
        · exact hd p h
      · rw [if_neg he] at hp; exact hd p hp

/-! ## Scan precedence lemma -/

theorem scan_fold_dget (fs : List String) (l : List String)
    (d0 : List (String × String)) (k : String) :
    dget (l.foldl (fun d pat =>
        if elemS (FONTS_DIR ++ "/" ++ pat) fs then
          dinsert (classify pat) (FONTS_DIR ++ "/" ++ pat) d
        else d) d0) k =
    ((l.filter (fun pat => elemS (FONTS_DIR ++ "/" ++ pat) fs &&
        decide (classify pat = k))).getLast?.map
      (fun pat => FONTS_DIR ++ "/" ++ pat)).or (dget d0 k) := by
  induction l generalizing d0 with
  | nil => simp
  | cons pat l ih =>
    rw [List.foldl_cons, ih]
    by_cases he : elemS (FONTS_DIR ++ "/" ++ pat) fs
    · by_cases hc : classify pat = k
      · have hpred : (elemS (FONTS_DIR ++ "/" ++ pat) fs &&
            decide (classify pat = k)) = true := by simp [he, hc]
        have hfc : (pat :: l).filter (fun pat =>
              elemS (FONTS_DIR ++ "/" ++ pat) fs && decide (classify pat = k)) =
            pat :: l.filter (fun pat =>
              elemS (FONTS_DIR ++ "/" ++ pat) fs && decide (classify pat = k)) :=
          List.filter_cons_of_pos hpred
        rw [hfc, if_pos he, dget_dinsert, if_pos hc.symm]
        cases hfl : l.filter (fun pat => elemS (FONTS_DIR ++ "/" ++ pat) fs &&
            decide (classify pat = k)) with
        | nil => simp
        | cons q t =>
          rw [List.getLast?_cons_cons]
          cases hgl : (q :: t).getLast? with
          | none => exact absurd hgl (Option.isSome_iff_ne_none.mp rfl)
          | some u => simp
      · have hpred : ¬(elemS (FONTS_DIR ++ "/" ++ pat) fs &&
            decide (classify pat = k)) = true := by simp [he, hc]
        have hfc : (pat :: l).filter (fun pat =>
              elemS (FONTS_DIR ++ "/" ++ pat) fs && decide (classify pat = k)) =
            l.filter (fun pat =>
              elemS (FONTS_DIR ++ "/" ++ pat) fs && decide (classify pat = k)) :=
          List.filter_cons_of_neg hpred
        rw [hfc, if_pos he, dget_dinsert, if_neg (fun hh => hc hh.symm)]
    · have hpred : ¬(elemS (FONTS_DIR ++ "/" ++ pat) fs &&
          decide (classify pat = k)) = true := by simp [he]
      have hfc : (pat :: l).filter (fun pat =>
            elemS (FONTS_DIR ++ "/" ++ pat) fs && decide (classify pat = k)) =
          l.filter (fun pat =>
            elemS (FONTS_DIR ++ "/" ++ pat) fs && decide (classify pat = k)) :=
        List.filter_cons_of_neg hpred
      rw [hfc, if_neg he]

/-! ## Result-totality lemmas -/

theorem res_total_aux (X ff : List (String × String))
    (h : (if (dgfBackfill X).isEmpty then none else some (dgfBackfill X)) =
      some ff) :
    dcontains ff "light" = true ∧ dcontains ff "regular" = true ∧
    dcontains ff "bold" = true := by
  by_cases hg : (dgfBackfill X).isEmpty
  · rw [if_pos hg] at h; cases h
  · rw [if_neg hg] at h
    obtain rfl : ff = dgfBackfill X := (Option.some.inj h).symm
    apply dgfBackfill_total
    intro hXe
    apply hg
    rw [hXe, dgfBackfill_nil]
    rfl

theorem download_res_total (family : String) (weights : List Nat)
    (fs : List String) (env : Env) (ff : List (String × String))
    (h : (download_google_font family weights fs env).res = some ff) :
    dcontains ff "light" = true ∧ dcontains ff "regular" = true ∧
    dcontains ff "bold" = true := by
  cases hcss : env.cssBlocks with
  | none => simp [download_google_font, hcss] at h
  | some blocks =>
    simp only [download_google_font, hcss] at h
    exact res_total_aux _ ff h

theorem defaultStage_total (fs : List String) (d : List (String × String))
    (h : defaultStage fs = some d) :
    dcontains d "light" = true ∧ dcontains d "regular" = true ∧
    dcontains d "bold" = true := by
  unfold defaultStage at h
  by_cases hc : robotoFonts.all (fun p => elemS p.2 fs)
  · rw [if_pos hc] at h
    obtain rfl : d = robotoFonts := (Option.some.inj h).symm
    decide
  · rw [if_neg hc] at h; cases h

/-- A fixed failing oracle: the CSS request errors, every download errors. -/
def envNone : Env := ⟨none, fun _ => DlOutcome.fetchFail⟩

/-! ## C5 -/

/-- C5 (confirmed): every non-`None` result of `load_fonts` — from the
local-override stage, the download stage, or the Roboto fallback — contains
all three weight keys `light`, `regular` and `bold`; a partial map is never
returned. -/
theorem c5_result_total (fam : Option String) (fs : List String) (env : Env)
    (d : List (String × String)) (h : (load_fonts fam fs env).res = some d) :
    dcontains d "light" = true ∧ dcontains d "regular" = true ∧
    dcontains d "bold" = true := by
  cases fam with
  | none =>
    simp only [load_fonts] at h
    exact defaultStage_total fs d h
  | some f =>
    simp only [load_fonts] at h
    by_cases hcond : f ≠ "" ∧ lowerStr f ≠ "roboto"
    · rw [if_pos hcond] at h
      by_cases hsl : (scanLocal f fs).isEmpty
      · simp only [hsl, Bool.not_true, Bool.false_eq_true, if_false] at h
        cases hdres : (download_google_font f defaultWeights fs env).res with
        | some ff =>
          simp only [hdres] at h
          obtain rfl : ff = d := by simpa using h
          exact download_res_total f defaultWeights fs env ff hdres
        | none =>
          simp only [hdres] at h
          exact defaultStage_total _ d (by simpa using h)
      · have hslf : (scanLocal f fs).isEmpty = false := by simpa using hsl
        simp only [hslf, Bool.not_false, if_true] at h
        obtain rfl : localBackfill (scanLocal f fs) = d := by simpa using h
        apply localBackfill_total
        intro hh
        rw [hh] at hslf
        simp at hslf
    · rw [if_neg hcond] at h
      exact defaultStage_total fs d (by simpa using h)

/-- Witness for C5: the Roboto fallback on a filesystem holding all three
bundled files yields a map containing all three weight keys. -/
theorem c5_result_total_witness :
    dcontains robotoFonts "light" = true ∧
    dcontains robotoFonts "regular" = true ∧
    dcontains robotoFonts "bold" = true :=
  c5_result_total none
    ["fonts/Roboto-Bold.ttf", "fonts/Roboto-Regular.ttf", "fonts/Roboto-Light.ttf"]
    envNone robotoFonts (by decide)

/-! ## C7 -/

/-- C7 (confirmed): when the local override scan finds nothing and the
catalog fetch fails (`cssBlocks = none`) or yields no entries
(`cssBlocks = some []`), `load_fonts` falls through to the bundled Roboto
family: it returns exactly the three fixed Roboto paths when all three files
exist, and `none` — never a partial map — when any of the three is missing. -/
theorem c7_total_fallback (f : String) (fs : List String) (env : Env)
    (hf : f ≠ "") (hrob : lowerStr f ≠ "roboto")
    (hscan : scanLocal f fs = [])
    (hcat : env.cssBlocks = none ∨ env.cssBlocks = some []) :
    (load_fonts (some f) fs env).res =
      if robotoFonts.all (fun p => elemS p.2 fs) then some robotoFonts
      else none := by
  have hd : download_google_font f defaultWeights fs env =
      ⟨none, fs, [Event.cssFetch]⟩ := by
    rcases hcat with h | h
    · simp only [download_google_font, h]
    · simp only [download_google_font, h]
      rfl
  simp only [load_fonts]
  rw [if_pos ⟨hf, hrob⟩, hscan]
  simp only [List.isEmpty_nil, Bool.not_true, Bool.false_eq_true, if_false, hd]
  rfl

/-- Witness for C7: with no local files, no Roboto files and a failing
catalog, resolution returns `none`. -/
theorem c7_total_fallback_witness :
    (load_fonts (some "Zzz") [] envNone).res = none := by
  have h := c7_total_fallback "Zzz" [] envNone (by decide) (by decide)
    (by decide) (Or.inl rfl)
  rw [h]
  decide

/-! ## C8 -/

/-- C8 (confirmed): when the requested family is absent (`None`), empty, or
equals the bundled default name `"roboto"` case-insensitively, `load_fonts`
skips the local-override scan and the remote stage entirely — its event list
is empty (no directory probe, no network request), the filesystem is
untouched, and the result is exactly the Roboto default stage. -/
theorem c8_default_skip (fam : Option String) (fs : List String) (env : Env)
    (h : fam = none ∨ fam = some "" ∨
      ∃ f, fam = some f ∧ lowerStr f = "roboto") :
    load_fonts fam fs env = ⟨defaultStage fs, fs, []⟩ := by
  rcases h with rfl | rfl | ⟨f, rfl, hf⟩
  · rfl
  · simp only [load_fonts]
    rw [if_neg]
    intro hcon
    exact hcon.1 rfl
  · simp only [load_fonts]
    rw [if_neg]
    intro hcon
    exact hcon.2 hf

/-- Witness for C8: requesting `"ROBOTO"` on an empty filesystem does no
scan and no network access, and fails through the default stage. -/
theorem c8_default_skip_witness :
    load_fonts (some "ROBOTO") [] envNone = ⟨none, [], []⟩ := by
  have h := c8_default_skip (some "ROBOTO") [] envNone
    (Or.inr (Or.inr ⟨"ROBOTO", rfl, by decide⟩))
  rw [h]
  decide

/-! ## C9 -/

/-- C9 (confirmed): local override files are classified by case-insensitive
substring tests on the whole filename, family-name portion included
(`light` first, then `bold`/`-bd`, else regular). Hence for every family
whose lowercased name contains `"light"`, every file the scan picks up —
including the `-Bold`/`-Bd`/`-Reg` patterns — lands under the `light` key,
and the `regular` and `bold` keys are never assigned. -/
theorem c9_light_family_classification (f : String) (fs : List String)
    (h : strContains (lowerStr f) "light" = true) :
    (∀ p ∈ scanLocal f fs, p.1 = "light") ∧
    dget (scanLocal f fs) "regular" = none ∧
    dget (scanLocal f fs) "bold" = none := by
  have hl : ∀ pat ∈ local_font_patterns f, classify pat = "light" := by
    intro pat hpat
    simp only [local_font_patterns, List.mem_cons, List.not_mem_nil,
      or_false] at hpat
    rcases hpat with rfl | rfl | rfl | rfl | rfl | rfl <;>
      exact classify_light _ (strContains_lower_append f _ _ h)
  have hall : ∀ p ∈ scanLocal f fs, p.1 = "light" :=
    scan_fold_keys fs (local_font_patterns f) [] "light" hl (by simp)
  exact ⟨hall, dget_eq_none_of_keys hall (by decide),
    dget_eq_none_of_keys hall (by decide)⟩

/-- Witness for C9: the family `"Lightning"` contains `"light"`, so even its
`Lightning-Bold.ttf` override is filed under `light` and the `bold` key
stays empty. -/
theorem c9_light_family_classification_witness :
    strContains (lowerStr "Lightning") "light" = true ∧
    dget (scanLocal "Lightning" ["fonts/Lightning-Bold.ttf"]) "bold" = none ∧
    scanLocal "Lightning" ["fonts/Lightning-Bold.ttf"] =
      [("light", "fonts/Lightning-Bold.ttf")] := by
  refine ⟨by decide, ?_, by decide⟩
  exact (c9_light_family_classification "Lightning"
    ["fonts/Lightning-Bold.ttf"] (by decide)).2.2

/-! ## C10 -/

/-- C10 (confirmed): the local scan walks the fixed pattern list
`[-Reg, -Regular, plain, -Bold, -Bd, -Light]` in order, each later match
overwriting the earlier assignment of the same weight key: the value stored
under a key is exactly the path of the last existing pattern classified to
that key. In particular `{family}.ttf` takes precedence over
`{family}-Regular.ttf` and `{family}-Reg.ttf` for the `regular` key. -/
theorem c10_later_pattern_wins :
    (∀ f fs k, dget (scanLocal f fs) k =
      ((local_font_patterns f).filter (fun pat =>
          elemS (FONTS_DIR ++ "/" ++ pat) fs &&
          decide (classify pat = k))).getLast?.map
        (fun pat => FONTS_DIR ++ "/" ++ pat)) ∧
    dget (scanLocal "NRT" ["fonts/NRT-Reg.ttf", "fonts/NRT-Regular.ttf",
      "fonts/NRT.ttf"]) "regular" = some "fonts/NRT.ttf" := by
  constructor
  · intro f fs k
    have h := scan_fold_dget fs (local_font_patterns f) [] k
    simpa [scanLocal, dget] using h
  · decide

/-! ## C4 -/

/-- C4 counterexample: the tie-break is NOT "prefer the lower numeric
weight". With the catalog parsed in the order `[(500, b), (300, a)]` and
requested weight 400, both candidates are at distance 100, yet the code
selects weight 500's URL `b` (the first minimal element in parse order),
not the lower weight 300's URL `a`. -/
theorem c4_closest_weight_cex :
    resolveUrl (mkCatalog [(500, "https://h/b.ttf"), (300, "https://h/a.ttf")])
        400 = some "https://h/b.ttf" ∧
    distTo 400 300 = distTo 400 500 ∧ (300 : Nat) < 500 := by decide

/-- C4 amended: the substituted entry always minimises the absolute distance
to the requested weight, but ties are broken by parse (insertion) order —
the earliest minimal entry wins, so the winner at a tie depends on the order
in which the catalog entries were parsed. For the catalog `{100, 900}` and
request 400 the distances differ (300 vs 500), so `urlA` is selected under
either parse order. -/
theorem c4_closest_weight_amended :
    (∀ w k ks, pyMinKey w ks = some k →
      k ∈ ks ∧ ∀ x ∈ ks, distTo w k ≤ distTo w x) ∧
    (resolveUrl (mkCatalog [(300, "https://h/a.ttf"), (500, "https://h/b.ttf")])
        400 = some "https://h/a.ttf" ∧
     resolveUrl (mkCatalog [(500, "https://h/b.ttf"), (300, "https://h/a.ttf")])
        400 = some "https://h/b.ttf") ∧
    (resolveUrl (mkCatalog [(100, "urlA"), (900, "urlB")]) 400 = some "urlA" ∧
     resolveUrl (mkCatalog [(900, "urlB"), (100, "urlA")]) 400 = some "urlA") := by
  refine ⟨?_, by decide, by decide⟩
  intro w k ks h
  exact pyMinKey_spec w k ks h

/-- Witness for C4 amended: the selection for weight 300 out of `[400, 700]`
is a member of the key list at minimal distance. -/
theorem c4_closest_weight_amended_witness :
    (400 : Nat) ∈ [400, 700] ∧ distTo 300 400 ≤ distTo 300 700 := by
  have h := c4_closest_weight_amended.1 300 400 [400, 700] (by decide)
  exact ⟨h.1, h.2 700 (by decide)⟩

/-! ## C3 -/

/-- Oracle for C3: the catalog offers one URL for weight 400; every binary
download succeeds over the network but the write to disk fails partway. -/
def c3WriteFailEnv : Env :=
  ⟨some [(400, "https://h/u.ttf")], fun _ => DlOutcome.writeFail⟩

/-- Oracle for C3's amended half: every binary fetch fails before a single
byte reaches the disk. -/
def c3FetchFailEnv : Env :=
  ⟨some [(400, "https://h/u.ttf")], fun _ => DlOutcome.fetchFail⟩

/-- C3 counterexample: the code writes the fetched bytes directly to the
final cache path (no temporary-file-then-rename), so a write that fails
partway DOES leave a file at the final cache path: after the failed run the
`exists` check on `fonts/cache/x_regular.ttf` returns true, even though the
download was not recorded in the result (which is `none`). -/
theorem c3_atomic_write_cex :
    elemS "fonts/cache/x_regular.ttf"
      (download_google_font "X" [400] [] c3WriteFailEnv).fs = true ∧
    (download_google_font "X" [400] [] c3WriteFailEnv).res = none := by decide

/-- C3 amended: a fetch that fails after the cache-miss check (before the
write begins) leaves the filesystem untouched, so no file appears at the
final cache path; but a write that fails partway leaves the partial file at
the final cache path, which a later `exists` check treats as valid. -/
theorem c3_atomic_write_amended :
    (∀ family weights fs env, (∀ u, env.dl u = DlOutcome.fetchFail) →
      (download_google_font family weights fs env).fs = fs) ∧
    elemS "fonts/cache/x_regular.ttf"
      (download_google_font "X" [400] [] c3WriteFailEnv).fs = true := by
  constructor
  · intro family weights fs env hff
    cases hcss : env.cssBlocks with
    | none => simp [download_google_font, hcss]
    | some blocks =>
      simp only [download_google_font, hcss]
      exact dgfFold_fetchFail family (mkCatalog blocks) env weights
        ⟨[], fs, [Event.cssFetch]⟩ hff
  · decide

/-- Witness for C3 amended: with failing fetches, a pre-existing unrelated
file is all that remains on disk after the run. -/
theorem c3_atomic_write_amended_witness :
    (download_google_font "X" [400] ["fonts/existing.ttf"] c3FetchFailEnv).fs =
      ["fonts/existing.ttf"] :=
  c3_atomic_write_amended.1 "X" [400] ["fonts/existing.ttf"] c3FetchFailEnv
    (fun _ => rfl)

/-! ## C6 -/

/-- C6 counterexample: the two distinct family names `"A B"` and `"A_B"`
normalise to the same `font_name_safe` (space becomes underscore, then
lowercase), so for the same weight class and extension they map to the SAME
cache filename — the derivation is not collision-free over raw names. -/
theorem c6_filename_collision_cex :
    cacheFilename "A B" "regular" "woff2" =
      cacheFilename "A_B" "regular" "woff2" ∧
    "A B" ≠ "A_B" := by decide

theorem cacheFilename_inj_family (f1 f2 k e : String)
    (h : font_name_safe f1 ≠ font_name_safe f2) :
    cacheFilename f1 k e ≠ cacheFilename f2 k e := by
  intro heq
  apply h
  unfold cacheFilename at heq
  have hd := congrArg String.data heq
  simp only [String.data_append, List.append_assoc] at hd
  have hn := List.append_cancel_right hd
  cases hf1 : font_name_safe f1 with
  | mk d1 =>
    cases hf2 : font_name_safe f2 with
    | mk d2 =>
      rw [hf1, hf2] at hn
      simp only at hn
      rw [hn]

theorem cacheFilename_inj_key (f e k1 k2 : String) (hne : k1 ≠ k2) :
    cacheFilename f k1 e ≠ cacheFilename f k2 e := by
  intro heq
  apply hne
  unfold cacheFilename at heq
  have hd := congrArg String.data heq
  simp only [String.data_append, List.append_assoc] at hd
  have h1 := List.append_cancel_left hd
  have h2 := List.append_cancel_left h1
  have h3 := List.append_cancel_right h2
  cases hk1 : k1 with
  | mk d1 =>
    cases hk2 : k2 with
    | mk d2 =>
      rw [hk1, hk2] at h3
      simp only at h3
      rw [h3]

/-- C6 amended: the cache filename derivation is deterministic, and it is
injective in the NORMALISED family name (for a fixed weight label and
extension) and injective in the weight label (for a fixed family and
extension); but the normalisation `replace(" ", "_").lower()` is not
injective on raw family names — `"A B"` and `"A_B"` normalise identically —
so distinct raw `(family, weight-class)` inputs can collide. -/
theorem c6_filename_amended :
    (∀ f1 f2 k e, font_name_safe f1 ≠ font_name_safe f2 →
      cacheFilename f1 k e ≠ cacheFilename f2 k e) ∧
    (∀ f e k1 k2, k1 ≠ k2 → cacheFilename f k1 e ≠ cacheFilename f k2 e) ∧
    font_name_safe "A B" = font_name_safe "A_B" :=
  ⟨cacheFilename_inj_family,
   fun f e k1 k2 hne => cacheFilename_inj_key f e k1 k2 hne,
   by decide⟩

/-- Witness for C6 amended: families with different normalisations, and
different weight labels, get different cache filenames. -/
theorem c6_filename_amended_witness :
    cacheFilename "Foo" "regular" "ttf" ≠ cacheFilename "Bar" "regular" "ttf" ∧
    cacheFilename "Foo" "light" "ttf" ≠ cacheFilename "Foo" "bold" "ttf" :=
  ⟨c6_filename_amended.1 "Foo" "Bar" "regular" "ttf" (by decide),
   c6_filename_amended.2.1 "Foo" "ttf" "light" "bold" (by decide)⟩

/-! ## C2 -/

theorem load_fonts_events_cached (f : String) (fs1 : List String) (env : Env)
    (bs : List (Nat × String))
    (hf : f ≠ "") (hrob : lowerStr f ≠ "roboto")
    (hcss : env.cssBlocks = some bs)
    (hscan1 : scanLocal f fs1 = [])
    (hpaths : ∀ w ∈ defaultWeights, ∀ p,
      pathFor f (mkCatalog bs) w = some p → p ∈ fs1) :
    (load_fonts (some f) fs1 env).events =
      [Event.localScan, Event.cssFetch] := by
  have hd2ev : (download_google_font f defaultWeights fs1 env).events =
      [Event.cssFetch] := by
    simp only [download_google_font, hcss]
    exact (dgfFold_cached f (mkCatalog bs) env defaultWeights
      ⟨[], fs1, [Event.cssFetch]⟩ hpaths).2
  simp only [load_fonts]
  rw [if_pos ⟨hf, hrob⟩, hscan1]
  simp only [List.isEmpty_nil, Bool.not_true, Bool.false_eq_true, if_false]
  cases hdres : (download_google_font f defaultWeights fs1 env).res with
  | some ff => simp only [hdres]; rw [hd2ev]
  | none => simp only [hdres]; rw [hd2ev]

/-- Oracle for C2: a two-weight catalog with all downloads succeeding. -/
def c2OkEnv : Env :=
  ⟨some [(400, "https://h/a.ttf"), (700, "https://h/b.ttf")],
   fun _ => DlOutcome.ok⟩

/-- C2 counterexample: with the catalog available and all downloads
succeeding, the first call resolves "Abc" remotely; yet the second call on
the resulting filesystem still performs a network fetch — the CSS catalog
request of line 49 is unconditional — so "zero network fetches of any kind"
is false. -/
theorem c2_second_call_cex :
    (load_fonts (some "Abc") [] c2OkEnv).res ≠ none ∧
    Event.cssFetch ∈ (load_fonts (some "Abc")
      (load_fonts (some "Abc") [] c2OkEnv).fs c2OkEnv).events := by decide

/-- C2 amended: if the first call resolves remotely with every binary
download succeeding, the second call performs ZERO font-binary downloads —
every needed cache path already exists — but it still issues the one
unconditional catalog request (and the local directory probe): its event
trace is exactly `[localScan, cssFetch]`, not empty. -/
theorem c2_second_call_fetch (f : String) (fs0 : List String) (env : Env)
    (bs : List (Nat × String))
    (hf : f ≠ "") (hrob : lowerStr f ≠ "roboto")
    (hcss : env.cssBlocks = some bs)
    (hok : ∀ u, env.dl u = DlOutcome.ok)
    (hscan0 : scanLocal f fs0 = [])
    (hscan1 : scanLocal f (load_fonts (some f) fs0 env).fs = []) :
    (load_fonts (some f) (load_fonts (some f) fs0 env).fs env).events =
      [Event.localScan, Event.cssFetch] := by
  apply load_fonts_events_cached f _ env bs hf hrob hcss hscan1
  intro w hw p hp
  have hfs1 : (load_fonts (some f) fs0 env).fs =
      (List.foldl (dgfStep f (mkCatalog bs) env)
        ⟨[], fs0, [Event.cssFetch]⟩ defaultWeights).fs := by
    simp only [load_fonts]
    rw [if_pos ⟨hf, hrob⟩, hscan0]
    simp only [List.isEmpty_nil, Bool.not_true, Bool.false_eq_true, if_false]
    cases hdres : (download_google_font f defaultWeights fs0 env).res with
    | some ff =>
      simp only [hdres]
      simp only [download_google_font, hcss]
    | none =>
      simp only [hdres]
      simp only [download_google_font, hcss]
  rw [hfs1]
  exact dgfFold_path_in f (mkCatalog bs) env defaultWeights _ w p hok hw hp

/-- Witness for C2 amended: the concrete two-weight catalog run — the second
call's whole event trace is the scan plus the single catalog request. -/
theorem c2_second_call_fetch_witness :
    (load_fonts (some "Abc")
      (load_fonts (some "Abc") [] c2OkEnv).fs c2OkEnv).events =
      [Event.localScan, Event.cssFetch] :=
  c2_second_call_fetch "Abc" [] c2OkEnv
    [(400, "https://h/a.ttf"), (700, "https://h/b.ttf")]
    (by decide) (by decide) rfl (fun _ => rfl) (by decide) (by decide)

/-! ## C1 -/

theorem resolveUrl_hit (cat : List (Nat × String)) (w : Nat) (url : String)
    (hget : dget cat w = some url) (hne : url ≠ "") :
    resolveUrl cat w = some url := by
  simp only [resolveUrl, hget, optFalsy]
  rw [show decide (url = "") = false from by simp [hne]]
  simp

theorem dgfStep_fresh_ok (family : String) (cat : List (Nat × String))
    (env : Env) (st : LoopSt) (w : Nat) (url : String)
    (hru : resolveUrl cat w = some url) (hne : url ≠ "")
    (he : elemS (cachePath family (weightKeyOf w) (extOf url)) st.fs = false)
    (hok : env.dl url = DlOutcome.ok) :
    dgfStep family cat env st w =
      ⟨dinsert (weightKeyOf w) (cachePath family (weightKeyOf w) (extOf url))
         st.font_files,
       st.fs ++ [cachePath family (weightKeyOf w) (extOf url)],
       st.events ++ [Event.binFetch url]⟩ := by
  simp only [dgfStep, hru]
  rw [if_neg hne,
    if_neg (show ¬(elemS (cachePath family (weightKeyOf w) (extOf url))
      st.fs = true) from by simp [he]), hok]

/-- The oracle of the C1 scenario: the catalog declares exactly
`{400 ↦ u1, 700 ↦ u2}` (no 300) and every download succeeds. -/
def c1EnvOf (u1 u2 : String) : Env :=
  ⟨some [(400, u1), (700, u2)], fun _ => DlOutcome.ok⟩

def c1Env : Env := c1EnvOf "https://h/u1.woff2" "https://h/u2.woff2"

/-- C1 counterexample: in the scenario (family "Noto Sans JP", no local
override, no cache, catalog `{400: u1, 700: u2}`), the run performs THREE
binary downloads, not two, and Light is NOT back-filled to Regular's path:
the closest-weight substitution resolves weight 300 to `u1` and downloads it
into a separate `noto_sans_jp_light.woff2` cache file. -/
theorem c1_scenario_cex :
    ((load_fonts (some "Noto Sans JP") [] c1Env).events.filter
      (fun e => match e with | Event.binFetch _ => true | _ => false)).length
      = 3 ∧
    dget ((load_fonts (some "Noto Sans JP") [] c1Env).res.getD []) "light" ≠
      dget ((load_fonts (some "Noto Sans JP") [] c1Env).res.getD [])
        "regular" := by decide

/-- C1 amended: for the scenario family "Noto Sans JP" with catalog
`{400: u1, 700: u2}` (both `.woff2`, non-empty), no local override and no
cache files, the result maps Regular to `u1`'s download at
`noto_sans_jp_regular.woff2` and Bold to `u2`'s at `noto_sans_jp_bold.woff2`;
but Light is resolved by closest-weight substitution to `u1` and downloaded
separately into its own `noto_sans_jp_light.woff2` file, so exactly THREE
binary downloads occur (`u1` twice, `u2` once). -/
theorem c1_scenario_amended (u1 u2 : String)
    (h1 : endsWithS u1 ".woff2" = true) (h2 : endsWithS u2 ".woff2" = true)
    (hn1 : u1 ≠ "") (hn2 : u2 ≠ "") :
    (load_fonts (some "Noto Sans JP") [] (c1EnvOf u1 u2)).res =
      some [("light", "fonts/cache/noto_sans_jp_light.woff2"),
            ("regular", "fonts/cache/noto_sans_jp_regular.woff2"),
            ("bold", "fonts/cache/noto_sans_jp_bold.woff2")] ∧
    (load_fonts (some "Noto Sans JP") [] (c1EnvOf u1 u2)).events =
      [Event.localScan, Event.cssFetch, Event.binFetch u1, Event.binFetch u1,
       Event.binFetch u2] := by
  have e1 : extOf u1 = "woff2" := by simp [extOf, h1]
  have e2 : extOf u2 = "woff2" := by simp [extOf, h2]
  have hp300 : cachePath "Noto Sans JP" (weightKeyOf 300) (extOf u1) =
      "fonts/cache/noto_sans_jp_light.woff2" := by rw [e1]; decide
  have hp400 : cachePath "Noto Sans JP" (weightKeyOf 400) (extOf u1) =
      "fonts/cache/noto_sans_jp_regular.woff2" := by rw [e1]; decide
  have hp700 : cachePath "Noto Sans JP" (weightKeyOf 700) (extOf u2) =
      "fonts/cache/noto_sans_jp_bold.woff2" := by rw [e2]; decide
  have hru300 : resolveUrl [(400, u1), (700, u2)] 300 = some u1 := rfl
  have hru400 : resolveUrl [(400, u1), (700, u2)] 400 = some u1 :=
    resolveUrl_hit _ _ _ rfl hn1
  have hru700 : resolveUrl [(400, u1), (700, u2)] 700 = some u2 :=
    resolveUrl_hit _ _ _ rfl hn2
  have hs300 : dgfStep "Noto Sans JP" [(400, u1), (700, u2)] (c1EnvOf u1 u2)
      ⟨[], [], [Event.cssFetch]⟩ 300 =
      ⟨[("light", "fonts/cache/noto_sans_jp_light.woff2")],
       ["fonts/cache/noto_sans_jp_light.woff2"],
       [Event.cssFetch, Event.binFetch u1]⟩ := by
    rw [dgfStep_fresh_ok "Noto Sans JP" [(400, u1), (700, u2)] (c1EnvOf u1 u2)
      ⟨[], [], [Event.cssFetch]⟩ 300 u1 hru300 hn1 rfl rfl, hp300]
    rfl
  have he400 : elemS (cachePath "Noto Sans JP" (weightKeyOf 400) (extOf u1))
      ["fonts/cache/noto_sans_jp_light.woff2"] = false := by
    rw [hp400]; decide
  have hs400 : dgfStep "Noto Sans JP" [(400, u1), (700, u2)] (c1EnvOf u1 u2)
      ⟨[("light", "fonts/cache/noto_sans_jp_light.woff2")],
       ["fonts/cache/noto_sans_jp_light.woff2"],
       [Event.cssFetch, Event.binFetch u1]⟩ 400 =
      ⟨[("light", "fonts/cache/noto_sans_jp_light.woff2"),
        ("regular", "fonts/cache/noto_sans_jp_regular.woff2")],
       ["fonts/cache/noto_sans_jp_light.woff2",
        "fonts/cache/noto_sans_jp_regular.woff2"],
       [Event.cssFetch, Event.binFetch u1, Event.binFetch u1]⟩ := by
    rw [dgfStep_fresh_ok "Noto Sans JP" [(400, u1), (700, u2)] (c1EnvOf u1 u2)
      _ 400 u1 hru400 hn1 he400 rfl, hp400]
    rfl
  have he700 : elemS (cachePath "Noto Sans JP" (weightKeyOf 700) (extOf u2))
      ["fonts/cache/noto_sans_jp_light.woff2",
       "fonts/cache/noto_sans_jp_regular.woff2"] = false := by
    rw [hp700]; decide
  have hs700 : dgfStep "Noto Sans JP" [(400, u1), (700, u2)] (c1EnvOf u1 u2)
      ⟨[("light", "fonts/cache/noto_sans_jp_light.woff2"),
        ("regular", "fonts/cache/noto_sans_jp_regular.woff2")],
       ["fonts/cache/noto_sans_jp_light.woff2",
        "fonts/cache/noto_sans_jp_regular.woff2"],
       [Event.cssFetch, Event.binFetch u1, Event.binFetch u1]⟩ 700 =
      ⟨[("light", "fonts/cache/noto_sans_jp_light.woff2"),
        ("regular", "fonts/cache/noto_sans_jp_regular.woff2"),
        ("bold", "fonts/cache/noto_sans_jp_bold.woff2")],
       ["fonts/cache/noto_sans_jp_light.woff2",
        "fonts/cache/noto_sans_jp_regular.woff2",
        "fonts/cache/noto_sans_jp_bold.woff2"],
       [Event.cssFetch, Event.binFetch u1, Event.binFetch u1,
        Event.binFetch u2]⟩ := by
    rw [dgfStep_fresh_ok "Noto Sans JP" [(400, u1), (700, u2)] (c1EnvOf u1 u2)
      _ 700 u2 hru700 hn2 he700 rfl, hp700]
    rfl
  have hfold : List.foldl (dgfStep "Noto Sans JP" [(400, u1), (700, u2)]
      (c1EnvOf u1 u2)) ⟨[], [], [Event.cssFetch]⟩ defaultWeights =
      ⟨[("light", "fonts/cache/noto_sans_jp_light.woff2"),
        ("regular", "fonts/cache/noto_sans_jp_regular.woff2"),
        ("bold", "fonts/cache/noto_sans_jp_bold.woff2")],
       ["fonts/cache/noto_sans_jp_light.woff2",
        "fonts/cache/noto_sans_jp_regular.woff2",
        "fonts/cache/noto_sans_jp_bold.woff2"],
       [Event.cssFetch, Event.binFetch u1, Event.binFetch u1,
        Event.binFetch u2]⟩ := by
    show List.foldl _ _ [300, 400, 700] = _
    rw [List.foldl_cons, hs300, List.foldl_cons, hs400, List.foldl_cons,
      hs700, List.foldl_nil]
  have hcss : (c1EnvOf u1 u2).cssBlocks = some [(400, u1), (700, u2)] := rfl
  have hdl : download_google_font "Noto Sans JP" defaultWeights []
      (c1EnvOf u1 u2) =
      ⟨some [("light", "fonts/cache/noto_sans_jp_light.woff2"),
             ("regular", "fonts/cache/noto_sans_jp_regular.woff2"),
             ("bold", "fonts/cache/noto_sans_jp_bold.woff2")],
       ["fonts/cache/noto_sans_jp_light.woff2",
        "fonts/cache/noto_sans_jp_regular.woff2",
        "fonts/cache/noto_sans_jp_bold.woff2"],
       [Event.cssFetch, Event.binFetch u1, Event.binFetch u1,
        Event.binFetch u2]⟩ := by
    simp only [download_google_font, hcss]
    rw [show mkCatalog [(400, u1), (700, u2)] = [(400, u1), (700, u2)]
      from rfl]
    rw [hfold]
    rfl
  have hscan : scanLocal "Noto Sans JP" [] = [] := rfl
  simp only [load_fonts]
  rw [if_pos ⟨(by decide : ("Noto Sans JP" : String) ≠ ""),
    (by decide : lowerStr "Noto Sans JP" ≠ "roboto")⟩, hscan]
  simp only [List.isEmpty_nil, Bool.not_true, Bool.false_eq_true, if_false]
  rw [hdl]
  exact ⟨rfl, rfl⟩

/-- Witness for C1 amended: the concrete run with two `.woff2` URLs. -/
theorem c1_scenario_amended_witness :
    (load_fonts (some "Noto Sans JP") [] c1Env).res =
      some [("light", "fonts/cache/noto_sans_jp_light.woff2"),
            ("regular", "fonts/cache/noto_sans_jp_regular.woff2"),
            ("bold", "fonts/cache/noto_sans_jp_bold.woff2")] :=
  (c1_scenario_amended "https://h/u1.woff2" "https://h/u2.woff2"
    (by decide) (by decide) (by decide) (by decide)).1
